import Mathlib

/-!
Verification of the Hexadecimal Serial Protocol core (`HexProtocol.h`).

The C++ engine is shallowly embedded:

* wire bytes are `Nat` values (< 256);
* C integer types are `Nat` (unsigned) or `Int` (signed) with explicit
  `% 2^w` wrapping where the C code performs an integral conversion;
* IEEE-754 floats are represented by their 32 raw bits (the protocol only
  reinterprets the bit pattern, never does float arithmetic);
* the byte transport of `StreamHexProtocol` is an in-memory stream: a
  state carrying the unread input bytes and the bytes written so far.
  A read that finds no terminator in the remaining input models the
  transport timeout; writes on a started session always succeed.
-/

set_option autoImplicit false

/-- Constant `PROT_TERM_CHAR = ASCII_EOT = 0x04`: every encoded value ends in it. -/
def PROT_TERM : Nat := 4

/-- Constant `PROT_ERROR = ASCII_NAK = 0x15`: the error sentinel command. -/
def PROT_ERROR : Nat := 21

/-- Sub-command `SUBCMD_ARRAY_SIZE = 0x01`. -/
def SUBCMD_ARRAY_SIZE : Nat := 1

/-- Sub-command `SUBCMD_ARRAY_STARTING = 0x02`. -/
def SUBCMD_ARRAY_STARTING : Nat := 2

/-- Sub-command `SUBCMD_ARRAY_ELEMENT = 0x03`. -/
def SUBCMD_ARRAY_ELEMENT : Nat := 3

/-- Sub-command `SUBCMD_ARRAY_FINISHED = 0x04`. -/
def SUBCMD_ARRAY_FINISHED : Nat := 4

/-- Constant `PROT_HEX_BUFF_SIZE = 2*sizeof(prot_ulong_t)+2 = 10`. -/
def PROT_HEX_BUFF_SIZE : Nat := 10

/-- Two's-complement wrap of an integer into the `prot_long_t` (`int32_t`)
range: models C integral conversion to a signed 32-bit type. -/
def wrap32 (i : Int) : Int := (i + 2 ^ 31) % 2 ^ 32 - 2 ^ 31

/-- C integral conversion of a (possibly negative) integer to
`prot_ulong_t` (`uint32_t`): reduction modulo `2^32`. -/
def uint32ofInt (i : Int) : Nat := (i % (2 ^ 32 : Int)).toNat

/-- ASCII code of a single lowercase hex digit, as produced by `ultoa`
with radix 16. -/
def hexDigitChar (d : Nat) : Nat := if d < 10 then 48 + d else 87 + d

/-- Numeric value of an ASCII hex digit (`strtoul` accepts both cases),
`none` for a non-digit. -/
def hexVal (c : Nat) : Option Nat :=
  if 48 ≤ c ∧ c ≤ 57 then some (c - 48)
  else if 97 ≤ c ∧ c ≤ 102 then some (c - 87)
  else if 65 ≤ c ∧ c ≤ 70 then some (c - 55)
  else none

/-- Digits of `n` in base 16, most significant first, as ASCII codes.
`fuel` bounds the recursion depth; the protocol only converts `uint32`
values, for which 32 is far more than enough. -/
def toHexAux : Nat → Nat → List Nat
  | 0, _ => []
  | fuel + 1, n => if n = 0 then [] else toHexAux fuel (n / 16) ++ [hexDigitChar (n % 16)]

/-- Model of `ultoa(value, buf, 16)`: shortest lowercase hex representation,
`"0"` for zero. -/
def toHex (n : Nat) : List Nat := if n = 0 then [48] else toHexAux 32 n

/-- Accumulating hex parser: consumes the longest prefix of hex digits,
folding them onto `acc`. -/
def hexParseAux : List Nat → Nat → Nat
  | [], acc => acc
  | c :: rest, acc =>
    match hexVal c with
    | some d => hexParseAux rest (acc * 16 + d)
    | none => acc

/-- Model of `strtoul(buf, nullptr, 16)` on a hex-digit string under a 32-bit
`unsigned long` (the header statically asserts `sizeof(long) == 4`):
parses the leading hex digits and clamps overflow to `ULONG_MAX`. -/
def strtoul16 (l : List Nat) : Nat :=
  let v := hexParseAux l 0
  if v ≤ 2 ^ 32 - 1 then v else 2 ^ 32 - 1

/-- Model of `strchr(buf, c)` specialised to the minus sign: the tail of the list
after the first `'-'` (ASCII 45), or `none`. -/
def afterMinus : List Nat → Option (List Nat)
  | [] => none
  | c :: rest => if c = 45 then some rest else afterMinus rest

/-- Model of `Stream::readBytesUntil(term, buf, size)`: take bytes until the
terminator (consumed, not returned), the size cap, or end of input
(the transport timeout).  Returns the bytes read and the rest of the
input. -/
def readUntilTerm : Nat → Nat → List Nat → List Nat × List Nat
  | 0, _, inp => ([], inp)
  | _ + 1, _, [] => ([], [])
  | sz + 1, term, b :: rest =>
    if b = term then ([], rest)
    else
      let p := readUntilTerm sz term rest
      (b :: p.1, p.2)

/-- Payload of `putValueDelegate<...,T>::call` for an unsigned `T` of bit width `w`:
cast to `prot_ulong_t`, shortest hex, then the terminator.  `v % 2^w` is
the value of the `T`-typed argument. -/
def encU (w : Nat) (v : Nat) : List Nat := toHex (v % 2 ^ w) ++ [PROT_TERM]

/-- Payload of `putValueDelegate<...,T>::call` for the signed 32-bit `prot_long_t`:
negative values are sent as `'-'` followed by the hex digits of the
(int32-wrapped) negation cast to `prot_ulong_t`. -/
def encS32 (v : Int) : List Nat :=
  let temp := wrap32 v
  (if temp < 0 then 45 :: toHex (uint32ofInt (wrap32 (-temp)))
   else toHex (uint32ofInt temp)) ++ [PROT_TERM]

/-- Decode of `getValueDelegate<...,T>::call` for an unsigned `T` of width `w`:
read until the terminator (buffer cap `PROT_HEX_BUFF_SIZE - 1 = 9`),
fail on zero bytes, `strtoul`, cast to `T`. -/
def decU (w : Nat) (inp : List Nat) : Option Nat × List Nat :=
  let p := readUntilTerm (PROT_HEX_BUFF_SIZE - 1) PROT_TERM inp
  if p.1 = [] then (none, p.2)
  else (some (strtoul16 p.1 % 2 ^ w), p.2)

/-- Decode of `getValueDelegate<...,T>::call` for signed 32-bit `T`: read the
payload; if it contains `'-'`, parse the remainder as `unsigned long`,
store into `prot_long_t` and negate in int32 arithmetic; otherwise parse
and cast. -/
def decS32 (inp : List Nat) : Option Int × List Nat :=
  let p := readUntilTerm (PROT_HEX_BUFF_SIZE - 1) PROT_TERM inp
  if p.1 = [] then (none, p.2)
  else
    match afterMinus p.1 with
    | some tail =>
      let temp := wrap32 ((strtoul16 tail : Int))
      (some (wrap32 (-temp)), p.2)
    | none => (some (wrap32 ((strtoul16 p.1 : Int))), p.2)

/-- A wire byte is a lowercase hex digit `[0-9a-f]`. -/
def isHexLower (c : Nat) : Prop := (48 ≤ c ∧ c ≤ 57) ∨ (97 ≤ c ∧ c ≤ 102)

theorem hexVal_hexDigitChar {d : Nat} (hd : d < 16) :
    hexVal (hexDigitChar d) = some d := by
  unfold hexDigitChar hexVal
  by_cases h : d < 10
  · simp only [if_pos h]
    rw [if_pos (by omega)]
    simp only [Option.some.injEq]
    omega
  · simp only [if_neg h]
    rw [if_neg (by omega), if_pos (by omega)]
    simp only [Option.some.injEq]
    omega

theorem toHexAux_succ (f n : Nat) :
    toHexAux (f + 1) n =
      if n = 0 then [] else toHexAux f (n / 16) ++ [hexDigitChar (n % 16)] := rfl

theorem hexParseAux_cons_digit {c d : Nat} (h : hexVal c = some d) (rest : List Nat) (a : Nat) :
    hexParseAux (c :: rest) a = hexParseAux rest (a * 16 + d) := by
  simp [hexParseAux, h]

theorem isHexLower_hexDigitChar {d : Nat} (hd : d < 16) :
    isHexLower (hexDigitChar d) := by
  unfold hexDigitChar isHexLower
  by_cases h : d < 10
  · exact Or.inl (by rw [if_pos h]; omega)
  · exact Or.inr (by rw [if_neg h]; omega)

theorem toHexAux_mem {fuel : Nat} : ∀ {n c : Nat}, c ∈ toHexAux fuel n → isHexLower c := by
  induction fuel with
  | zero => intro n c hc; simp [toHexAux] at hc
  | succ f ih =>
    intro n c hc
    unfold toHexAux at hc
    by_cases hn : n = 0
    · simp [hn] at hc
    · rw [if_neg hn] at hc
      rcases List.mem_append.mp hc with h | h
      · exact ih h
      · rcases List.mem_singleton.mp h with rfl
        exact isHexLower_hexDigitChar (Nat.mod_lt _ (by norm_num))

theorem toHex_mem {n c : Nat} (hc : c ∈ toHex n) : isHexLower c := by
  unfold toHex at hc
  by_cases hn : n = 0
  · rw [if_pos hn] at hc
    rcases List.mem_singleton.mp hc with rfl
    exact Or.inl (by omega)
  · exact toHexAux_mem (by rwa [if_neg hn] at hc)

theorem isHexLower_ne_term {c : Nat} (h : isHexLower c) : c ≠ PROT_TERM := by
  rcases h with ⟨h1, _⟩ | ⟨h1, _⟩ <;> (unfold PROT_TERM; omega)

theorem isHexLower_ne_minus {c : Nat} (h : isHexLower c) : c ≠ 45 := by
  rcases h with ⟨h1, _⟩ | ⟨h1, _⟩ <;> omega

theorem toHexAux_length {fuel : Nat} : ∀ {n k : Nat}, n < 16 ^ k →
    (toHexAux fuel n).length ≤ k := by
  induction fuel with
  | zero => intro n k _; simp [toHexAux]
  | succ f ih =>
    intro n k hn
    unfold toHexAux
    by_cases h0 : n = 0
    · simp [h0]
    · rw [if_neg h0]
      have hk : k ≠ 0 := by
        rintro rfl
        simp only [pow_zero, Nat.lt_one_iff] at hn
        exact h0 hn
      obtain ⟨k', rfl⟩ := Nat.exists_eq_succ_of_ne_zero hk
      have hdiv : n / 16 < 16 ^ k' := by
        rw [Nat.div_lt_iff_lt_mul (by norm_num)]
        calc n < 16 ^ (k' + 1) := hn
        _ = 16 ^ k' * 16 := by ring
      have := ih hdiv
      simp only [List.length_append, List.length_singleton]
      omega

theorem toHex_length {n k : Nat} (hk : 1 ≤ k) (hn : n < 16 ^ k) :
    (toHex n).length ≤ k := by
  unfold toHex
  by_cases h0 : n = 0
  · rw [if_pos h0]; simpa using hk
  · rw [if_neg h0]; exact toHexAux_length hn

theorem toHex_ne_nil {n : Nat} : toHex n ≠ [] := by
  unfold toHex
  by_cases h0 : n = 0
  · simp [h0]
  · rw [if_neg h0]
    unfold toHexAux
    rw [if_neg h0]
    simp

theorem hexParseAux_toHexAux {fuel : Nat} : ∀ {n : Nat} (rest : List Nat) (a : Nat),
    n < 16 ^ fuel →
    hexParseAux (toHexAux fuel n ++ rest) a =
      hexParseAux rest (a * 16 ^ (toHexAux fuel n).length + n) := by
  induction fuel with
  | zero =>
    intro n rest a hn
    have : n = 0 := by simpa [Nat.lt_one_iff] using hn
    simp [toHexAux, this]
  | succ f ih =>
    intro n rest a hn
    by_cases h0 : n = 0
    · simp [toHexAux, h0]
    · have hdiv : n / 16 < 16 ^ f := by
        rw [Nat.div_lt_iff_lt_mul (by norm_num)]
        calc n < 16 ^ (f + 1) := hn
        _ = 16 ^ f * 16 := by ring
      have hstep : toHexAux (f + 1) n = toHexAux f (n / 16) ++ [hexDigitChar (n % 16)] := by
        rw [toHexAux_succ, if_neg h0]
      rw [hstep, List.append_assoc, ih _ _ hdiv, List.singleton_append,
        hexParseAux_cons_digit (hexVal_hexDigitChar (Nat.mod_lt _ (by norm_num))) rest]
      congr 1
      have hlen : (toHexAux f (n / 16) ++ [hexDigitChar (n % 16)]).length =
          (toHexAux f (n / 16)).length + 1 := by simp
      rw [hlen, pow_succ]
      have := Nat.div_add_mod n 16
      ring_nf
      omega

theorem strtoul16_toHex {n : Nat} (hn : n < 2 ^ 32) : strtoul16 (toHex n) = n := by
  have hval : hexParseAux (toHex n) 0 = n := by
    unfold toHex
    by_cases h0 : n = 0
    · simp [h0, hexParseAux, hexVal]
    · rw [if_neg h0]
      have h32 : n < 16 ^ 32 := lt_of_lt_of_le hn (by norm_num)
      have := @hexParseAux_toHexAux 32 n [] 0 h32
      simpa [hexParseAux] using this
  unfold strtoul16
  rw [hval, if_pos (by omega)]

theorem readUntilTerm_spec {term : Nat} : ∀ (payload : List Nat) {sz : Nat} (rest : List Nat),
    payload.length ≤ sz → (∀ c ∈ payload, c ≠ term) →
    (readUntilTerm sz term (payload ++ term :: rest)).1 = payload ∧
      (payload.length < sz → (readUntilTerm sz term (payload ++ term :: rest)).2 = rest) := by
  intro payload
  induction payload with
  | nil =>
    intro sz rest _ _
    constructor
    · cases sz with
      | zero => simp [readUntilTerm]
      | succ n => simp [readUntilTerm]
    · intro hlt
      cases sz with
      | zero => simp at hlt
      | succ n => simp [readUntilTerm]
  | cons b bs ih =>
    intro sz rest hlen hterm
    have hb : b ≠ term := hterm b (by simp)
    cases sz with
    | zero => simp at hlen
    | succ n =>
      have hlen' : bs.length ≤ n := by simpa using hlen
      have hterm' : ∀ c ∈ bs, c ≠ term := fun c hc => hterm c (by simp [hc])
      have hstep : readUntilTerm (n + 1) term ((b :: bs) ++ term :: rest) =
          (b :: (readUntilTerm n term (bs ++ term :: rest)).1,
           (readUntilTerm n term (bs ++ term :: rest)).2) := by
        simp [readUntilTerm, hb]
      rw [hstep]
      obtain ⟨h1, h2⟩ := ih rest hlen' hterm'
      refine ⟨by rw [h1], ?_⟩
      intro hlt
      exact h2 (by simpa using hlt)

theorem afterMinus_eq_none {l : List Nat} (h : ∀ c ∈ l, c ≠ 45) : afterMinus l = none := by
  induction l with
  | nil => rfl
  | cons c rest ih =>
    unfold afterMinus
    rw [if_neg (h c (by simp))]
    exact ih fun c hc => h c (by simp [hc])

theorem toHex_length_le_eight {n : Nat} (hn : n < 2 ^ 32) : (toHex n).length ≤ 8 :=
  toHex_length (by norm_num) (lt_of_lt_of_le hn (by norm_num))

/-- Unsigned decode of an unsigned encode recovers the value and consumes
exactly the encoded bytes. -/
theorem decU_encU {w v : Nat} (hw : w ≤ 32) (hv : v < 2 ^ w) (rest : List Nat) :
    decU w (encU w v ++ rest) = (some v, rest) := by
  have hv32 : v < 2 ^ 32 := lt_of_lt_of_le hv (Nat.pow_le_pow_right (by norm_num) hw)
  have hmod : v % 2 ^ w = v := Nat.mod_eq_of_lt hv
  have hterm : ∀ c ∈ toHex v, c ≠ PROT_TERM :=
    fun c hc => isHexLower_ne_term (toHex_mem hc)
  have hlen : (toHex v).length ≤ 9 := le_trans (toHex_length_le_eight hv32) (by norm_num)
  have happ : encU w v ++ rest = toHex v ++ PROT_TERM :: rest := by
    simp [encU, hmod]
  obtain ⟨h1, h2⟩ := @readUntilTerm_spec PROT_TERM (toHex v) 9 rest hlen hterm
  have h2' := h2 (lt_of_le_of_lt (toHex_length_le_eight hv32) (by norm_num))
  unfold decU
  rw [happ]
  have hsz : PROT_HEX_BUFF_SIZE - 1 = 9 := rfl
  rw [hsz, if_neg (by rw [h1]; exact toHex_ne_nil)]
  rw [h1, h2', strtoul16_toHex hv32, hmod]

/-- C4: for every 32-bit unsigned integer, decode of encode is the
identity; the payload is terminator-delimited lowercase hex with no
leading minus sign. -/
theorem unsigned_codec_roundtrip (u : Nat) (hu : u < 2 ^ 32) :
    (decU 32 (encU 32 u)).1 = some u ∧
      (encU 32 u).getLast? = some PROT_TERM ∧
      ∀ c ∈ (encU 32 u).dropLast, isHexLower c ∧ c ≠ 45 := by
  refine ⟨?_, ?_, ?_⟩
  · have := decU_encU (le_refl 32) hu []
    rw [List.append_nil] at this
    rw [this]
  · simp [encU]
  · intro c hc
    have hdl : (encU 32 u).dropLast = toHex (u % 2 ^ 32) := by
      simp [encU]
    rw [hdl] at hc
    exact ⟨toHex_mem hc, isHexLower_ne_minus (toHex_mem hc)⟩

theorem unsigned_codec_roundtrip_maxulong :
    (decU 32 (encU 32 4294967295)).1 = some 4294967295 ∧
      (encU 32 4294967295).getLast? = some PROT_TERM ∧
      ∀ c ∈ (encU 32 4294967295).dropLast, isHexLower c ∧ c ≠ 45 :=
  unsigned_codec_roundtrip 4294967295 (by norm_num)

theorem wrap32_of_range {i : Int} (h1 : -(2 ^ 31) ≤ i) (h2 : i < 2 ^ 31) : wrap32 i = i := by
  unfold wrap32
  omega

theorem wrap32_cast_pos {m : Nat} {i : Int} (hmval : (m : Int) = i)
    (h2 : i < 2 ^ 31) : wrap32 (m : Int) = i := by
  unfold wrap32; omega

theorem wrap32_neg_double {m : Nat} {i : Int} (hmval : (m : Int) = -i)
    (h1 : -(2 ^ 31) ≤ i) (hneg : i < 0) : wrap32 (-(wrap32 (m : Int))) = i := by
  unfold wrap32; omega

/-- The signed decode on a well-formed terminated payload, expressed as a
function of the payload. -/
theorem decS32_fst {payload : List Nat} (rest : List Nat) (hne : payload ≠ [])
    (hlen : payload.length ≤ 9) (hterm : ∀ c ∈ payload, c ≠ PROT_TERM) :
    (decS32 (payload ++ PROT_TERM :: rest)).1 =
      some (match afterMinus payload with
        | some tail => wrap32 (-(wrap32 ((strtoul16 tail : Int))))
        | none => wrap32 ((strtoul16 payload : Int))) := by
  obtain ⟨r1, _⟩ := @readUntilTerm_spec PROT_TERM payload 9 rest hlen hterm
  have hsz : PROT_HEX_BUFF_SIZE - 1 = 9 := rfl
  simp only [decS32, hsz]
  rw [r1, if_neg hne]
  rcases ham : afterMinus payload with _ | tail <;> simp [ham]

/-- C1: decode of encode is the identity on every `int32` value, and the
minimum value `-0x80000000` is encoded as the payload `-80000000`
followed by `TERM`. -/
theorem signed_codec_roundtrip :
    (∀ i : Int, -(2 ^ 31) ≤ i → i < 2 ^ 31 → (decS32 (encS32 i)).1 = some i) ∧
      encS32 (-(2 ^ 31)) = [45, 56, 48, 48, 48, 48, 48, 48, 48, PROT_TERM] := by
  constructor
  · intro i h1 h2
    by_cases hneg : i < 0
    · -- negative branch: payload is '-' followed by hex of the magnitude
      obtain ⟨m, hm⟩ : ∃ m, uint32ofInt (wrap32 (-i)) = m := ⟨_, rfl⟩
      have hmval : (m : Int) = -i := by
        rw [← hm]; unfold uint32ofInt wrap32; omega
      have hm32 : m < 2 ^ 32 := by omega
      have henc : encS32 i = (45 :: toHex m) ++ [PROT_TERM] := by
        simp only [encS32]
        rw [wrap32_of_range h1 h2, if_pos hneg, hm]
      have hterm : ∀ c ∈ 45 :: toHex m, c ≠ PROT_TERM := by
        intro c hc
        rcases List.mem_cons.mp hc with rfl | hc'
        · unfold PROT_TERM; omega
        · exact isHexLower_ne_term (toHex_mem hc')
      have hlen : (45 :: toHex m).length ≤ 9 := by
        have := toHex_length_le_eight hm32
        simp only [List.length_cons]
        omega
      have hfst := @decS32_fst (45 :: toHex m) [] (by simp) hlen hterm
      have hminus : afterMinus (45 :: toHex m) = some (toHex m) := by
        unfold afterMinus; rw [if_pos rfl]
      simp only [hminus] at hfst
      rw [strtoul16_toHex hm32] at hfst
      rw [henc, hfst]
      exact congrArg some (wrap32_neg_double hmval h1 hneg)
    · -- non-negative branch: plain hex payload
      push_neg at hneg
      obtain ⟨m, hm⟩ : ∃ m, uint32ofInt i = m := ⟨_, rfl⟩
      have hmval : (m : Int) = i := by
        rw [← hm]; unfold uint32ofInt; omega
      have hm32 : m < 2 ^ 32 := by omega
      have henc : encS32 i = toHex m ++ [PROT_TERM] := by
        simp only [encS32]
        rw [wrap32_of_range h1 h2, if_neg (not_lt.mpr hneg), hm]
      have hterm : ∀ c ∈ toHex m, c ≠ PROT_TERM :=
        fun c hc => isHexLower_ne_term (toHex_mem hc)
      have hlen : (toHex m).length ≤ 9 := le_trans (toHex_length_le_eight hm32) (by norm_num)
      have hfst := @decS32_fst (toHex m) [] toHex_ne_nil hlen hterm
      simp only [afterMinus_eq_none fun c hc => isHexLower_ne_minus (toHex_mem hc)] at hfst
      rw [strtoul16_toHex hm32] at hfst
      rw [henc, hfst]
      exact congrArg some (wrap32_cast_pos hmval h2)
  · decide

theorem signed_codec_roundtrip_min :
    (decS32 (encS32 (-(2 ^ 31)))).1 = some (-(2 ^ 31)) ∧
      encS32 (-(2 ^ 31)) = [45, 56, 48, 48, 48, 48, 48, 48, 48, PROT_TERM] :=
  ⟨signed_codec_roundtrip.1 (-(2 ^ 31)) (by norm_num) (by norm_num),
    signed_codec_roundtrip.2⟩

/-- C2 counterexample: the signed codec encodes `-1` as the payload `-1`
(minus sign and the hex of the absolute value), not as `-ffffffff`. -/
theorem encS32_neg_one_ne_claimed :
    encS32 (-1) = [45, 49, PROT_TERM] ∧
      encS32 (-1) ≠ [45, 102, 102, 102, 102, 102, 102, 102, 102, PROT_TERM] := by
  constructor
  · decide
  · decide

/-- C2 amended: setting `-1` puts the payload `-1` followed by `TERM`, and
that payload decodes back to `-1` (so a subsequent get returns the same
`-1` payload). -/
theorem encS32_neg_one_roundtrip :
    encS32 (-1) = [45, 49, PROT_TERM] ∧ (decS32 [45, 49, PROT_TERM]).1 = some (-1) := by
  constructor
  · decide
  · decide

/-- Payload of `putValueDelegate<...,prot_float_t>::call` with `PROT_FLOAT_IEEE754`:
the 32 raw bits of the float are reinterpreted as `prot_ulong_t` and sent
through the unsigned codec.  A float value is represented here by its
IEEE-754 bit pattern. -/
def encFloatBits (bits : Nat) : List Nat := encU 32 bits

/-- Decode of `getValueDelegate<...,prot_float_t>::call` with `PROT_FLOAT_IEEE754`:
read a `prot_ulong_t` and reinterpret its bits as the float. -/
def decFloatBits (inp : List Nat) : Option Nat × List Nat := decU 32 inp

/-- An IEEE-754 binary32 NaN: exponent field all ones, mantissa nonzero. -/
def isNaN32 (bits : Nat) : Prop := (bits / 2 ^ 23) % 2 ^ 8 = 255 ∧ bits % 2 ^ 23 ≠ 0

/-- C5: the float codec round-trips every non-NaN 32-bit pattern
bit-for-bit (in fact every pattern). -/
theorem float_codec_roundtrip (bits : Nat) (hb : bits < 2 ^ 32) (hnan : ¬ isNaN32 bits) :
    (decFloatBits (encFloatBits bits)).1 = some bits := by
  unfold decFloatBits encFloatBits
  have := decU_encU (le_refl 32) hb []
  rw [List.append_nil] at this
  rw [this]

theorem float_codec_roundtrip_one :
    (decFloatBits (encFloatBits 1065353216)).1 = some 1065353216 := by
  have hnan : ¬ isNaN32 1065353216 := by
    unfold isNaN32
    decide
  exact float_codec_roundtrip 1065353216 (by norm_num) hnan

/-- The in-memory byte stream of a started session: bytes still to be
read, and bytes written so far. -/
structure PState where
  inp : List Nat
  out : List Nat
deriving DecidableEq

/-- Model of `writeBuffer` on a started stream: append and report full success. -/
def writeBytes (bs : List Nat) (s : PState) : PState := ⟨s.inp, s.out ++ bs⟩

/-- Model of `putCommand(cmd)`: write the single raw command byte
(`static_cast<prot_byte_t>`), no terminator. -/
def putCommand (c : Nat) (s : PState) : Bool × PState := (true, writeBytes [c % 256] s)

/-- Model of `putValue<T>` for an unsigned `T` of width `w` on the stream: write
the encoded payload; the write is complete, so the call reports true. -/
def putValueU (w : Nat) (v : Nat) (s : PState) : Bool × PState :=
  (true, writeBytes (encU w v) s)

/-- Model of `getValue<T>` for an unsigned `T` of width `w` on the stream. -/
def getValueU (w : Nat) (s : PState) : Option Nat × PState :=
  ((decU w s.inp).1, ⟨(decU w s.inp).2, s.out⟩)

/-- Model of `reply(cmd)`: the echo reply goes through the `prot_cmd_t` codec. -/
def reply (c : Nat) (s : PState) : Bool × PState := putValueU 8 c s

/-- Model of `replyError()`: reply with `PROT_ERROR` and always return false. -/
def replyError (s : PState) : Bool × PState :=
  let s1 := (putValueU 8 PROT_ERROR s).2
  (false, s1)

/-- Model of `checkReply(cmd)`: read a `prot_cmd_t` value; succeed iff it equals
the command. -/
def checkReply (c : Nat) (s : PState) : Bool × PState :=
  (match (getValueU 8 s).1 with
   | some a => a == c % 256
   | none => false,
   (getValueU 8 s).2)

/-- Model of `StreamHexProtocol::readByte`: fails when the session has not
started or `Stream::read()` returns -1 (no byte buffered). -/
def readByte (started : Bool) (inp : List Nat) : Option (Nat × List Nat) :=
  if started then
    match inp with
    | [] => none
    | b :: rest => some (b % 256, rest)
  else none

/-- Model of `getCommand()`: read one raw byte; on failure return `PROT_ERROR`. -/
def getCommand (started : Bool) (inp : List Nat) : Nat :=
  match readByte started inp with
  | some p => p.1
  | none => PROT_ERROR

/-- Model of `putString(str)`: raw bytes when nonempty, then one terminator. -/
def putString (str : List Nat) (s : PState) : Bool × PState :=
  let s1 := if str.length > 0 then writeBytes str s else s
  (true, writeBytes [PROT_TERM] s1)

/-- Model of `getString(strbuf, size)`: read until the terminator; zero bytes read
is a failure. -/
def getString (size : Nat) (s : PState) : Option (List Nat) × PState :=
  ((if (readUntilTerm size PROT_TERM s.inp).1 = [] then none
    else some (readUntilTerm size PROT_TERM s.inp).1),
   ⟨(readUntilTerm size PROT_TERM s.inp).2, s.out⟩)

/-- C9: `replyError` always returns false and writes exactly the
`ERROR` sentinel through the command codec: the hex payload `15`
followed by a single `TERM`. -/
theorem replyError_spec (s : PState) :
    replyError s = (false, ⟨s.inp, s.out ++ [49, 53, PROT_TERM]⟩) := rfl

/-- C10: whenever `readByte` fails (session not started, or no byte
before the timeout), `getCommand` returns `PROT_ERROR = 0x15`; and
genuinely reading the byte `0x15` returns the same value, so the two
cases are indistinguishable from the result. -/
theorem getCommand_failure_indistinguishable :
    (∀ (started : Bool) (inp : List Nat),
        readByte started inp = none → getCommand started inp = PROT_ERROR) ∧
      (∀ rest : List Nat, getCommand true (PROT_ERROR :: rest) = PROT_ERROR) ∧
      (∀ inp : List Nat, getCommand false inp = PROT_ERROR) ∧
      getCommand true [] = PROT_ERROR := by
  refine ⟨?_, ?_, ?_, rfl⟩
  · intro started inp h
    unfold getCommand
    rw [h]
  · intro rest
    rfl
  · intro inp
    rfl

theorem getCommand_failure_indistinguishable_inst :
    getCommand true [] = PROT_ERROR ∧ getCommand true [PROT_ERROR] = PROT_ERROR :=
  ⟨getCommand_failure_indistinguishable.1 true [] rfl,
    getCommand_failure_indistinguishable.2.1 []⟩

/-- C8 counterexample: `putString("")` does emit exactly one `TERM` byte,
but reading it back fails: `getString` reports failure on a zero-length
payload, so the empty string does not round-trip. -/
theorem empty_string_no_roundtrip :
    putString [] ⟨[], []⟩ = (true, ⟨[], [PROT_TERM]⟩) ∧
      (getString 128 ⟨[PROT_TERM], []⟩).1 = none := by
  constructor
  · rfl
  · rfl

/-- C8 amended: a `putString("")` emits exactly one byte, the `TERM`
terminator, and returns true; but a `getString` whose next input byte is
that lone `TERM` reads zero payload bytes and fails. -/
theorem putString_empty_emits_term (inp out : List Nat) (sz : Nat) :
    putString [] ⟨inp, out⟩ = (true, ⟨inp, out ++ [PROT_TERM]⟩) ∧
      (getString sz ⟨PROT_TERM :: inp, out⟩).1 = none := by
  constructor
  · rfl
  · cases sz with
    | zero => rfl
    | succ n =>
      unfold getString readUntilTerm
      simp

/-- The simple `processGet` handler (one value, no delegate): if the
optional `beforeGet` task is present and fails, the code calls
`replyError()` but does not return, so it continues into the echo reply
and the value.  `targetSet` models `target_ != nullptr`; `beforeGet` is
`none` for a null function pointer, `some b` for a task returning `b`. -/
def processGet (cmd w val : Nat) (targetSet : Bool) (beforeGet : Option Bool)
    (s : PState) : Bool × PState :=
  let s1 :=
    match beforeGet with
    | none => s
    | some bg => if targetSet && bg then s else (replyError s).2
  match reply cmd s1 with
  | (false, s2) => (false, s2)
  | (true, s2) => putValueU w val s2

/-- C3 (code bug): with a failing `beforeGet` task, `processGet` emits
the `ERROR` reply `15·TERM` and then also the echo reply `4f·TERM` plus
the value payload `1f·TERM` - two replies for one accepted command byte,
contradicting the one-reply-per-command contract. -/
theorem processGet_beforeGet_fail_two_replies :
    processGet 79 16 31 true (some false) ⟨[], []⟩ =
      (true, ⟨[], [49, 53, PROT_TERM] ++ [52, 102, PROT_TERM] ++ [49, 102, PROT_TERM]⟩) ∧
      (replyError ⟨[], []⟩).2.out = [49, 53, PROT_TERM] ∧
      (reply 79 ⟨[], []⟩).2.out = [52, 102, PROT_TERM] := by
  refine ⟨?_, rfl, rfl⟩
  decide

/-- One element step of `dispatchSetArray`: command byte, `SUBCMD_ARRAY_ELEMENT`,
the index as `prot_size_t`, the element, then the reply check. -/
def setArrElemStep (we cmd i e : Nat) (s : PState) : Bool × PState :=
  match putCommand cmd s with
  | (false, s1) => (false, s1)
  | (true, s1) =>
    match putValueU 8 SUBCMD_ARRAY_ELEMENT s1 with
    | (false, s2) => (false, s2)
    | (true, s2) =>
      match putValueU 16 i s2 with
      | (false, s3) => (false, s3)
      | (true, s3) =>
        match putValueU we e s3 with
        | (false, s4) => (false, s4)
        | (true, s4) => checkReply cmd s4

/-- The element loop of `dispatchSetArray` (`for i = 0; i < size; i++`),
with early exit on a failed step. -/
def setArrLoop (we cmd : Nat) : List Nat → Nat → PState → Bool × PState
  | [], _, s => (true, s)
  | e :: rest, i, s =>
    match setArrElemStep we cmd i e s with
    | (false, s1) => (false, s1)
    | (true, s1) => setArrLoop we cmd rest (i + 1) s1

/-- Model of `dispatchSetArray(cmd, pt, size)` for an unsigned element type of
width `we`; the array is the list `elems` (whose length is the `size`
argument).  Size query, bound check, element loop, finish message. -/
def dispatchSetArray (we cmd : Nat) (elems : List Nat) (s : PState) : Bool × PState :=
  match putCommand cmd s with
  | (false, s1) => (false, s1)
  | (true, s1) =>
    match putValueU 8 SUBCMD_ARRAY_SIZE s1 with
    | (false, s2) => (false, s2)
    | (true, s2) =>
      match checkReply cmd s2 with
      | (false, s3) => (false, s3)
      | (true, s3) =>
        match getValueU 16 s3 with
        | (none, s4) => (false, s4)
        | (some maxSize, s4) =>
          if elems.length ≤ maxSize then
            match setArrLoop we cmd elems 0 s4 with
            | (false, s5) => (false, s5)
            | (true, s5) =>
              match putCommand cmd s5 with
              | (false, s6) => (false, s6)
              | (true, s6) =>
                match putValueU 8 SUBCMD_ARRAY_FINISHED s6 with
                | (false, s7) => (false, s7)
                | (true, s7) =>
                  match putValueU 16 elems.length s7 with
                  | (false, s8) => (false, s8)
                  | (true, s8) => checkReply cmd s8
          else (false, s4)

/-- One element step of `dispatchGetArray`: command byte,
`SUBCMD_ARRAY_ELEMENT`, the index, reply check, then the element read. -/
def getArrElemStep (we cmd i : Nat) (s : PState) : Bool × PState :=
  match putCommand cmd s with
  | (false, s1) => (false, s1)
  | (true, s1) =>
    match putValueU 8 SUBCMD_ARRAY_ELEMENT s1 with
    | (false, s2) => (false, s2)
    | (true, s2) =>
      match putValueU 16 i s2 with
      | (false, s3) => (false, s3)
      | (true, s3) =>
        match checkReply cmd s3 with
        | (false, s4) => (false, s4)
        | (true, s4) =>
          match getValueU we s4 with
          | (none, s5) => (false, s5)
          | (some _, s5) => (true, s5)

/-- The element loop of `dispatchGetArray` over the received size. -/
def getArrLoop (we cmd : Nat) : Nat → Nat → PState → Bool × PState
  | 0, _, s => (true, s)
  | k + 1, i, s =>
    match getArrElemStep we cmd i s with
    | (false, s1) => (false, s1)
    | (true, s1) => getArrLoop we cmd k (i + 1) s1

/-- Model of `dispatchGetArray(cmd, pt, maxSize, size)` for an unsigned element
type of width `we`: starting message, size query, bound check, element
loop. -/
def dispatchGetArray (we cmd maxSize : Nat) (s : PState) : Bool × PState :=
  match putCommand cmd s with
  | (false, s1) => (false, s1)
  | (true, s1) =>
    match putValueU 8 SUBCMD_ARRAY_STARTING s1 with
    | (false, s2) => (false, s2)
    | (true, s2) =>
      match checkReply cmd s2 with
      | (false, s3) => (false, s3)
      | (true, s3) =>
        match putCommand cmd s3 with
        | (false, s4) => (false, s4)
        | (true, s4) =>
          match putValueU 8 SUBCMD_ARRAY_SIZE s4 with
          | (false, s5) => (false, s5)
          | (true, s5) =>
            match checkReply cmd s5 with
            | (false, s6) => (false, s6)
            | (true, s6) =>
              match getValueU 16 s6 with
              | (none, s7) => (false, s7)
              | (some size, s7) =>
                if size ≤ maxSize then getArrLoop we cmd size 0 s7
                else (false, s7)

/-- The bytes of the reply stream a cooperating responder produces for
`n` successive reply checks of command `c`. -/
def joinN (n : Nat) (bs : List Nat) : List Nat := (List.replicate n bs).flatten

/-- The wire bytes of one `SUBCMD_ARRAY_ELEMENT` message for index `i`
and element `e`. -/
def setElemMsg (we cmd i e : Nat) : List Nat :=
  [cmd % 256] ++ encU 8 SUBCMD_ARRAY_ELEMENT ++ encU 16 i ++ encU we e

/-- The wire bytes of the whole element phase of an array set, indices
counting up from `i`. -/
def setElemTrace (we cmd : Nat) : Nat → List Nat → List Nat
  | _, [] => []
  | i, e :: rest => setElemMsg we cmd i e ++ setElemTrace we cmd (i + 1) rest

theorem getValueU_enc {w v : Nat} (hw : w ≤ 32) (hv : v < 2 ^ w) (rest out : List Nat) :
    getValueU w ⟨encU w v ++ rest, out⟩ = (some v, ⟨rest, out⟩) := by
  unfold getValueU
  rw [show (⟨encU w v ++ rest, out⟩ : PState).inp = encU w v ++ rest from rfl,
    decU_encU hw hv rest]

theorem checkReply_enc (c : Nat) (rest out : List Nat) :
    checkReply c ⟨encU 8 c ++ rest, out⟩ = (true, ⟨rest, out⟩) := by
  have hmod : encU 8 c = encU 8 (c % 256) := by
    unfold encU
    have : c % 2 ^ 8 = c % 256 % 2 ^ 8 := by omega
    rw [this]
  have hv : c % 256 < 2 ^ 8 := by omega
  unfold checkReply
  rw [hmod, getValueU_enc (by norm_num) hv rest out]
  simp

theorem checkReply_out (c : Nat) (s : PState) : (checkReply c s).2.out = s.out := rfl

theorem setArrElemStep_enc (we cmd i e : Nat) (rest out : List Nat) :
    setArrElemStep we cmd i e ⟨encU 8 cmd ++ rest, out⟩ =
      (true, ⟨rest, out ++ setElemMsg we cmd i e⟩) := by
  unfold setArrElemStep
  simp only [putCommand, putValueU, writeBytes]
  rw [checkReply_enc]
  simp [setElemMsg]

theorem setArrLoop_enc (we cmd : Nat) : ∀ (elems : List Nat) (i : Nat) (rest out : List Nat),
    setArrLoop we cmd elems i ⟨joinN elems.length (encU 8 cmd) ++ rest, out⟩ =
      (true, ⟨rest, out ++ setElemTrace we cmd i elems⟩) := by
  intro elems
  induction elems with
  | nil =>
    intro i rest out
    simp [setArrLoop, joinN, setElemTrace]
  | cons e es ih =>
    intro i rest out
    have hjoin : joinN (e :: es).length (encU 8 cmd) =
        encU 8 cmd ++ joinN es.length (encU 8 cmd) := by
      simp [joinN, List.replicate_succ]
    rw [hjoin, List.append_assoc]
    unfold setArrLoop
    simp only [setArrElemStep_enc]
    rw [ih]
    simp [setElemTrace]

/-- C6: `dispatchSetArray` first runs the `SUBCMD_ARRAY_SIZE` exchange;
if the remote maximum is smaller than the array it fails without sending
any element message; otherwise, against a cooperating responder, it sends
one `SUBCMD_ARRAY_ELEMENT` message per index in increasing order, then
the `SUBCMD_ARRAY_FINISHED` message carrying the length, and returns
true; and it returns true only if every step's reply check succeeded:
the size-query check (conjunct 3), and - via conjuncts 4 to 6 - a true
result requires the size-query check, the element loop and the
finish-step check all to have succeeded, where success of the loop on a
nonempty list requires success of its first element step (hence of that
step's reply check, conjunct 5) and of the rest of the loop. -/
theorem dispatchSetArray_spec (we cmd : Nat) (elems : List Nat) (m : Nat) (out0 : List Nat)
    (hm : m < 2 ^ 16) :
    (m < elems.length → ∀ rest : List Nat,
      dispatchSetArray we cmd elems ⟨encU 8 cmd ++ (encU 16 m ++ rest), out0⟩ =
        (false, ⟨rest, out0 ++ [cmd % 256] ++ encU 8 SUBCMD_ARRAY_SIZE⟩)) ∧
    (elems.length ≤ m → ∀ extra : List Nat,
      dispatchSetArray we cmd elems
          ⟨encU 8 cmd ++ (encU 16 m ++ (joinN elems.length (encU 8 cmd) ++ (encU 8 cmd ++ extra))),
            out0⟩ =
        (true, ⟨extra,
          out0 ++ [cmd % 256] ++ encU 8 SUBCMD_ARRAY_SIZE ++ setElemTrace we cmd 0 elems ++
            [cmd % 256] ++ encU 8 SUBCMD_ARRAY_FINISHED ++ encU 16 elems.length⟩)) ∧
    (∀ s0 : PState,
      (checkReply cmd (writeBytes (encU 8 SUBCMD_ARRAY_SIZE) (writeBytes [cmd % 256] s0))).1 =
          false →
        (dispatchSetArray we cmd elems s0).1 = false) ∧
    (∀ s0 : PState, (dispatchSetArray we cmd elems s0).1 = true →
      ∃ s3 mv s4 s5,
        checkReply cmd (writeBytes (encU 8 SUBCMD_ARRAY_SIZE) (writeBytes [cmd % 256] s0)) =
          (true, s3) ∧
        getValueU 16 s3 = (some mv, s4) ∧
        elems.length ≤ mv ∧
        setArrLoop we cmd elems 0 s4 = (true, s5) ∧
        (checkReply cmd (writeBytes (encU 16 elems.length)
          (writeBytes (encU 8 SUBCMD_ARRAY_FINISHED) (writeBytes [cmd % 256] s5)))).1 = true) ∧
    (∀ (i e : Nat) (s : PState), (setArrElemStep we cmd i e s).1 = true →
      (checkReply cmd (writeBytes (encU we e) (writeBytes (encU 16 i)
        (writeBytes (encU 8 SUBCMD_ARRAY_ELEMENT) (writeBytes [cmd % 256] s))))).1 = true) ∧
    (∀ (e : Nat) (rest : List Nat) (i : Nat) (s : PState),
      (setArrLoop we cmd (e :: rest) i s).1 = true →
      (setArrElemStep we cmd i e s).1 = true ∧
      (setArrLoop we cmd rest (i + 1) (setArrElemStep we cmd i e s).2).1 = true) := by
  refine ⟨?_, ?_, ?_, ?_, ?_, ?_⟩
  · intro hgt rest
    unfold dispatchSetArray
    simp only [putCommand, putValueU, writeBytes, checkReply_enc,
      getValueU_enc (by norm_num : (16 : Nat) ≤ 32) hm]
    rw [if_neg (by omega)]
  · intro hle extra
    unfold dispatchSetArray
    simp only [putCommand, putValueU, writeBytes, checkReply_enc,
      getValueU_enc (by norm_num : (16 : Nat) ≤ 32) hm]
    rw [if_pos hle]
    simp only [setArrLoop_enc, putCommand, putValueU, writeBytes, checkReply_enc]
  · intro s0 hfail
    unfold dispatchSetArray
    simp only [putCommand, putValueU]
    rcases hcr : checkReply cmd (writeBytes (encU 8 SUBCMD_ARRAY_SIZE) (writeBytes [cmd % 256] s0))
      with ⟨b, s3⟩
    rw [hcr] at hfail
    simp only at hfail
    subst hfail
    rfl
  · intro s0 h
    unfold dispatchSetArray at h
    simp only [putCommand, putValueU] at h
    rcases hc1 : checkReply cmd (writeBytes (encU 8 SUBCMD_ARRAY_SIZE)
        (writeBytes [cmd % 256] s0)) with ⟨b1, s3⟩
    rw [hc1] at h
    cases b1
    · simp at h
    · dsimp only at h
      rcases hgv : getValueU 16 s3 with ⟨r, s4⟩
      rw [hgv] at h
      cases r with
      | none => simp at h
      | some mv =>
        dsimp only at h
        by_cases hsz : elems.length ≤ mv
        · rw [if_pos hsz] at h
          rcases hloop : setArrLoop we cmd elems 0 s4 with ⟨bl, s5⟩
          rw [hloop] at h
          cases bl
          · simp at h
          · dsimp only at h
            exact ⟨s3, mv, s4, s5, rfl, hgv, hsz, hloop, h⟩
        · rw [if_neg hsz] at h
          simp at h
  · intro i e s h
    exact h
  · intro e rest i s h
    rcases hst : setArrElemStep we cmd i e s with ⟨b, s1⟩
    unfold setArrLoop at h
    rw [hst] at h
    cases b
    · simp at h
    · dsimp only at h
      exact ⟨rfl, h⟩

theorem dispatchSetArray_spec_inst :
    dispatchSetArray 16 77 [100, 110, 120, 130]
        ⟨encU 8 77 ++ (encU 16 256 ++ (joinN 4 (encU 8 77) ++ (encU 8 77 ++ []))), []⟩ =
      (true, ⟨[],
        [] ++ [77 % 256] ++ encU 8 SUBCMD_ARRAY_SIZE ++ setElemTrace 16 77 0 [100, 110, 120, 130] ++
          [77 % 256] ++ encU 8 SUBCMD_ARRAY_FINISHED ++ encU 16 4⟩) :=
  (dispatchSetArray_spec 16 77 [100, 110, 120, 130] 256 [] (by decide)).2.1 (by decide) []

theorem getValueU_out (w : Nat) (s : PState) : (getValueU w s).2.out = s.out := rfl

theorem getArrElemStep_out (we cmd i : Nat) (s : PState) :
    ∃ t, (getArrElemStep we cmd i s).2.out = s.out ++ t := by
  unfold getArrElemStep
  simp only [putCommand, putValueU]
  rcases hcr : checkReply cmd
      (writeBytes (encU 16 i)
        (writeBytes (encU 8 SUBCMD_ARRAY_ELEMENT) (writeBytes [cmd % 256] s))) with ⟨b1, s4⟩
  have h4 : s4.out = s.out ++ ([cmd % 256] ++ (encU 8 SUBCMD_ARRAY_ELEMENT ++ encU 16 i)) := by
    have hpre := checkReply_out cmd
      (writeBytes (encU 16 i)
        (writeBytes (encU 8 SUBCMD_ARRAY_ELEMENT) (writeBytes [cmd % 256] s)))
    rw [hcr] at hpre
    simpa [writeBytes, List.append_assoc] using hpre
  cases b1
  · exact ⟨_, h4⟩
  · dsimp only
    rcases hgv : getValueU we s4 with ⟨r, s5⟩
    have h5 : s5.out = s4.out := by
      have hpre := getValueU_out we s4
      rw [hgv] at hpre
      exact hpre
    cases r
    · exact ⟨_, by dsimp only; rw [h5, h4]⟩
    · exact ⟨_, by dsimp only; rw [h5, h4]⟩

theorem getArrLoop_out (we cmd : Nat) : ∀ (k i : Nat) (s : PState),
    ∃ t, (getArrLoop we cmd k i s).2.out = s.out ++ t := by
  intro k
  induction k with
  | zero =>
    intro i s
    exact ⟨[], by simp [getArrLoop]⟩
  | succ n ih =>
    intro i s
    unfold getArrLoop
    rcases hst : getArrElemStep we cmd i s with ⟨b1, s1⟩
    have hs1 : ∃ t, s1.out = s.out ++ t := by
      have hpre := getArrElemStep_out we cmd i s
      rw [hst] at hpre
      exact hpre
    cases b1
    · exact hs1
    · dsimp only
      obtain ⟨t1, ht1⟩ := hs1
      obtain ⟨t2, ht2⟩ := ih (i + 1) s1
      exact ⟨t1 ++ t2, by rw [ht2, ht1, List.append_assoc]⟩

/-- C7: a successful `dispatchSetArray` always has the
`SUBCMD_ARRAY_FINISHED` message as the last bytes it wrote; and
`dispatchGetArray` always writes the `SUBCMD_ARRAY_STARTING` message
first, and sends no element request when the starting reply check
fails. -/
theorem array_subcommand_order (we cmd mx : Nat) (elems : List Nat) (s0 : PState)
    (inp : List Nat) :
    ((dispatchSetArray we cmd elems s0).1 = true →
      ∃ pre, (dispatchSetArray we cmd elems s0).2.out =
        pre ++ ([cmd % 256] ++ (encU 8 SUBCMD_ARRAY_FINISHED ++ encU 16 elems.length))) ∧
    (∃ t, (dispatchGetArray we cmd mx ⟨inp, []⟩).2.out =
      [cmd % 256] ++ encU 8 SUBCMD_ARRAY_STARTING ++ t) ∧
    ((checkReply cmd (writeBytes (encU 8 SUBCMD_ARRAY_STARTING)
          (writeBytes [cmd % 256] (⟨inp, []⟩ : PState)))).1 = false →
      dispatchGetArray we cmd mx ⟨inp, []⟩ =
        (false, (checkReply cmd (writeBytes (encU 8 SUBCMD_ARRAY_STARTING)
          (writeBytes [cmd % 256] (⟨inp, []⟩ : PState)))).2) ∧
      (dispatchGetArray we cmd mx ⟨inp, []⟩).2.out =
        [cmd % 256] ++ encU 8 SUBCMD_ARRAY_STARTING) := by
  refine ⟨?_, ?_, ?_⟩
  · suffices hS : (dispatchSetArray we cmd elems s0).1 = false ∨
        ∃ pre, (dispatchSetArray we cmd elems s0).2.out =
          pre ++ ([cmd % 256] ++ (encU 8 SUBCMD_ARRAY_FINISHED ++ encU 16 elems.length)) by
      intro h
      rcases hS with hf | hok
      · rw [h] at hf
        exact absurd hf (by simp)
      · exact hok
    unfold dispatchSetArray
    simp only [putCommand, putValueU]
    rcases hc1 : checkReply cmd (writeBytes (encU 8 SUBCMD_ARRAY_SIZE)
        (writeBytes [cmd % 256] s0)) with ⟨b1, s3⟩
    cases b1
    · exact Or.inl rfl
    · dsimp only
      rcases hgv : getValueU 16 s3 with ⟨r, s4⟩
      cases r with
      | none => exact Or.inl rfl
      | some mv =>
        dsimp only
        by_cases hsz : elems.length ≤ mv
        · rw [if_pos hsz]
          rcases hloop : setArrLoop we cmd elems 0 s4 with ⟨bl, s5⟩
          cases bl
          · exact Or.inl rfl
          · dsimp only
            rcases hc2 : checkReply cmd (writeBytes (encU 16 elems.length)
                (writeBytes (encU 8 SUBCMD_ARRAY_FINISHED) (writeBytes [cmd % 256] s5)))
              with ⟨bf, sf⟩
            refine Or.inr ⟨s5.out, ?_⟩
            have hpre := checkReply_out cmd (writeBytes (encU 16 elems.length)
              (writeBytes (encU 8 SUBCMD_ARRAY_FINISHED) (writeBytes [cmd % 256] s5)))
            rw [hc2] at hpre
            dsimp only
            rw [hpre]
            simp [writeBytes]
        · rw [if_neg hsz]
          exact Or.inl rfl
  · unfold dispatchGetArray
    simp only [putCommand, putValueU]
    rcases hc1 : checkReply cmd (writeBytes (encU 8 SUBCMD_ARRAY_STARTING)
        (writeBytes [cmd % 256] (⟨inp, []⟩ : PState))) with ⟨b1, s3⟩
    have h3 : s3.out = [cmd % 256] ++ encU 8 SUBCMD_ARRAY_STARTING := by
      have hpre := checkReply_out cmd (writeBytes (encU 8 SUBCMD_ARRAY_STARTING)
        (writeBytes [cmd % 256] (⟨inp, []⟩ : PState)))
      rw [hc1] at hpre
      rw [hpre]
      simp [writeBytes]
    cases b1
    · exact ⟨[], by dsimp only; simp [h3]⟩
    · dsimp only
      rcases hc2 : checkReply cmd (writeBytes (encU 8 SUBCMD_ARRAY_SIZE)
          (writeBytes [cmd % 256] s3)) with ⟨b2, s6⟩
      have h6 : s6.out = s3.out ++ ([cmd % 256] ++ encU 8 SUBCMD_ARRAY_SIZE) := by
        have hpre := checkReply_out cmd (writeBytes (encU 8 SUBCMD_ARRAY_SIZE)
          (writeBytes [cmd % 256] s3))
        rw [hc2] at hpre
        rw [hpre]
        simp [writeBytes]
      cases b2
      · exact ⟨[cmd % 256] ++ encU 8 SUBCMD_ARRAY_SIZE,
          by dsimp only; simp [h6, h3]⟩
      · dsimp only
        rcases hgv : getValueU 16 s6 with ⟨r, s7⟩
        have h7 : s7.out = s6.out := by
          have hpre := getValueU_out 16 s6
          rw [hgv] at hpre
          exact hpre
        cases r with
        | none =>
          exact ⟨[cmd % 256] ++ encU 8 SUBCMD_ARRAY_SIZE,
            by dsimp only; simp [h7, h6, h3]⟩
        | some sz =>
          dsimp only
          by_cases hsz : sz ≤ mx
          · rw [if_pos hsz]
            obtain ⟨t2, ht2⟩ := getArrLoop_out we cmd sz 0 s7
            exact ⟨[cmd % 256] ++ encU 8 SUBCMD_ARRAY_SIZE ++ t2,
              by simp [ht2, h7, h6, h3]⟩
          · rw [if_neg hsz]
            exact ⟨[cmd % 256] ++ encU 8 SUBCMD_ARRAY_SIZE,
              by dsimp only; simp [h7, h6, h3]⟩
  · intro hf
    rcases hc1 : checkReply cmd (writeBytes (encU 8 SUBCMD_ARRAY_STARTING)
        (writeBytes [cmd % 256] (⟨inp, []⟩ : PState))) with ⟨b1, s3⟩
    rw [hc1] at hf
    simp only at hf
    subst hf
    have h3 : s3.out = [cmd % 256] ++ encU 8 SUBCMD_ARRAY_STARTING := by
      have hpre := checkReply_out cmd (writeBytes (encU 8 SUBCMD_ARRAY_STARTING)
        (writeBytes [cmd % 256] (⟨inp, []⟩ : PState)))
      rw [hc1] at hpre
      rw [hpre]
      simp [writeBytes]
    constructor
    · unfold dispatchGetArray
      simp only [putCommand, putValueU]
      rw [hc1]
    · unfold dispatchGetArray
      simp only [putCommand, putValueU]
      rw [hc1]
      dsimp only
      exact h3

theorem array_subcommand_order_inst :
    (∃ pre, (dispatchSetArray 16 77 [5]
        ⟨encU 8 77 ++ (encU 16 256 ++ (joinN 1 (encU 8 77) ++ (encU 8 77 ++ []))), []⟩).2.out =
      pre ++ ([77 % 256] ++ (encU 8 SUBCMD_ARRAY_FINISHED ++ encU 16 1))) ∧
    (∃ t, (dispatchGetArray 16 77 8 ⟨[], []⟩).2.out =
      [77 % 256] ++ encU 8 SUBCMD_ARRAY_STARTING ++ t) :=
  ⟨(array_subcommand_order 16 77 8 [5]
      ⟨encU 8 77 ++ (encU 16 256 ++ (joinN 1 (encU 8 77) ++ (encU 8 77 ++ []))), []⟩ []).1
      (by decide),
    (array_subcommand_order 16 77 8 [5]
      ⟨encU 8 77 ++ (encU 16 256 ++ (joinN 1 (encU 8 77) ++ (encU 8 77 ++ []))), []⟩ []).2.1⟩
